import Mathlib

/-
Verification of the date-bot check pipeline (src/main.go).

Strings from the program (HTTP response bodies, tokens, file contents)
are modelled as `List Char`.  Fallible operations return `Except Err`
or pair their result with an `Option Err`, mirroring Go's `(value, error)`
convention.  The history file is modelled as an optional JSON value
(`none` = the file is missing or unreadable), and the network and the
notification channel are modelled as an explicit environment record.
-/

set_option maxHeartbeats 1000000

/-- Value type of src/main.go:24-27: a month and a day, both Go `int`.
Equality is structural (derived), as Go's `==` on this struct. -/
structure Date where
  Month : Int
  Day : Int
deriving DecidableEq, Repr

/-- Error taxonomy of the run: transport failures of `get`, `strconv.Atoi`
failures (carrying the offending token), history-file read/write failures,
and `bot.Send` failures. -/
inductive Err where
  | network (msg : List Char)
  | parse (tok : List Char)
  | storage
  | dispatch
deriving DecidableEq, Repr

/-- Model of `checkHistory` (src/main.go:29-36): linear scan of the history
for an element structurally equal to `date`. -/
def checkHistory (date : Date) (history : List Date) : Bool :=
  history.any (fun historyDate => decide (historyDate = date))

/-- Minimal JSON universe, enough for `encoding/json` on `[]Date`. -/
inductive Json where
  | num (n : Int)
  | str (s : List Char)
  | arr (xs : List Json)
  | obj (fields : List (String × Json))

/-- Lookup of an object field by name (our model keeps `json.Unmarshal`'s
field matching exact-name; the marshalled data only uses exact names). -/
def lookupField (name : String) : List (String × Json) → Option Json
  | [] => none
  | (k, v) :: fs => if k = name then some v else lookupField name fs

/-- A JSON number decodes into a Go `int` field; anything else is an error. -/
def jsonToInt : Json → Option Int
  | .num n => some n
  | _ => none

/-- Decoding of one struct field: an absent field leaves the Go zero value,
a present field must be a number. -/
def decodeField (fields : List (String × Json)) (name : String) : Option Int :=
  match lookupField name fields with
  | none => some 0
  | some j => jsonToInt j

/-- Model of `json.Unmarshal` into one `Date`: the element must be an object
whose `month`/`day` fields (if present) are numbers. -/
def unmarshalDate : Json → Option Date
  | .obj fields =>
    match decodeField fields "month", decodeField fields "day" with
    | some m, some d => some ⟨m, d⟩
    | _, _ => none
  | _ => none

/-- Element-wise decoding of a JSON array into `[]Date`. -/
def unmarshalList : List Json → Option (List Date)
  | [] => some []
  | j :: js =>
    match unmarshalDate j with
    | none => none
    | some d =>
      match unmarshalList js with
      | none => none
      | some ds => some (d :: ds)

/-- Model of `json.Unmarshal` into `[]Date`: the payload must be an array. -/
def unmarshalHistory : Json → Option (List Date)
  | .arr xs => unmarshalList xs
  | _ => none

/-- Model of `json.Marshal` of one `Date` (field order follows the struct). -/
def marshalDate (d : Date) : Json :=
  .obj [("month", .num d.Month), ("day", .num d.Day)]

/-- Model of `json.Marshal` of a `[]Date`. -/
def marshalHistory (history : List Date) : Json :=
  .arr (history.map marshalDate)

/-- Contents of `history.json`: `none` models a missing or unreadable file. -/
abbrev World := Option Json

/-- Model of `readHistory` (src/main.go:38-47): `ReadFile` then
`json.Unmarshal`; a missing file or an undecodable payload surfaces the
raw failure together with the zero history. -/
def readHistory (w : World) : List Date × Option Err :=
  match w with
  | none => ([], some .storage)
  | some j =>
    match unmarshalHistory j with
    | some history => (history, none)
    | none => ([], some .storage)

/-- Model of `writeHistory` (src/main.go:49-56): `json.Marshal` (which cannot
fail on this data) then `WriteFile`, overwriting the whole file; `writeOk`
injects the possibility of a `WriteFile` failure. -/
def writeHistory (writeOk : Bool) (history : List Date) (w : World) :
    World × Option Err :=
  if writeOk then (some (marshalHistory history), none) else (w, some .storage)

/-- Accumulating base-10 digit reader: every character must be an ASCII
digit (as in `strconv.Atoi`). -/
def digitsAcc : List Char → Nat → Option Nat
  | [], acc => some acc
  | c :: cs, acc =>
    if c.isDigit then digitsAcc cs (acc * 10 + (c.toNat - 48)) else none

/-- Model of `strconv.Atoi`: optional sign, at least one digit, base 10.
Machine-word overflow is not modelled (day tokens are tiny). -/
def atoi : List Char → Option Int
  | [] => none
  | ['+'] => none
  | ['-'] => none
  | '+' :: cs => (digitsAcc cs 0).map Int.ofNat
  | '-' :: cs => (digitsAcc cs 0).map (fun n => -(Int.ofNat n))
  | cs => (digitsAcc cs 0).map Int.ofNat

/-- Model of `strings.Split(s, ",")`: always returns at least one element. -/
def splitComma : List Char → List (List Char)
  | [] => [[]]
  | ',' :: cs => [] :: splitComma cs
  | c :: cs =>
    match splitComma cs with
    | t :: ts => (c :: t) :: ts
    | [] => [[c]]

/-- Day-token loop of `availableDates` (src/main.go:81-88): the first token
that `Atoi` rejects aborts the whole parse with that token's error. -/
def parseDays (month : Int) : List (List Char) → Except Err (List Date)
  | [] => .ok []
  | tok :: toks =>
    match atoi tok with
    | none => .error (.parse tok)
    | some d =>
      match parseDays month toks with
      | .error e => .error e
      | .ok ds => .ok (⟨month, d⟩ :: ds)

/-- Model of `availableDates` (src/main.go:69-91), applied to the outcome of
the HTTP fetch for the month's endpoint: split on commas, keep the interior
elements (`raw[1 : len(raw)-1]`), parse each as a day of `month`. -/
def availableDates (month : Int) (fetched : Except Err (List Char)) :
    Except Err (List Date) :=
  match fetched with
  | .error e => .error e
  | .ok body =>
    let raw := splitComma body
    if raw.length < 2 then .ok []
    else parseDays month ((raw.drop 1).dropLast)

/-- All-or-nothing `Atoi` over a token list (the spec's "all interior
elements parse as decimal integers"). -/
def atoiAll : List (List Char) → Option (List Int)
  | [] => some []
  | t :: ts =>
    match atoi t, atoiAll ts with
    | some n, some ns => some (n :: ns)
    | _, _ => none

/-- Character class `[0-9\-:]` of the regex in src/main.go:100. -/
def isTimeChar (c : Char) : Bool :=
  c.isDigit || c = '-' || c = ':'

/-- Characters of the literal regex part `value="`. -/
def vq : List Char := ['v', 'a', 'l', 'u', 'e', '=', '"']

/-- Characters of the display separator `" - "` of src/main.go:107. -/
def sp : List Char := [' ', '-', ' ']

/-- One attempted match of the regex `value="[0-9\-:]+"` at the head of the
input: on success, returns the inner time-range token and the rest of the
input after the closing quote.  The character classes are disjoint from `"`,
so the greedy `+` is exactly "maximal run then a quote". -/
def matchFragment : List Char → Option (List Char × List Char)
  | 'v' :: 'a' :: 'l' :: 'u' :: 'e' :: '=' :: '"' :: rest =>
    let t := rest.takeWhile isTimeChar
    if t.isEmpty then none
    else
      match rest.dropWhile isTimeChar with
      | '"' :: r => some (t, r)
      | _ => none
  | _ => none

/-- Fuelled scanner behind `regexp.FindAllString` for this pattern:
successive non-overlapping leftmost matches, in order of appearance.
One unit of fuel is spent per head position, and every successful match
consumes at least one character, so `fuel = input length` is enough. -/
def fragmentsAux : Nat → List Char → List (List Char)
  | 0, _ => []
  | _ + 1, [] => []
  | fuel + 1, c :: cs =>
    match matchFragment (c :: cs) with
    | some (t, rest) => t :: fragmentsAux fuel rest
    | none => fragmentsAux fuel cs

/-- Inner tokens of all matches of `value="[0-9\-:]+"` in the body, in
order of appearance (src/main.go:100-101). -/
def fragments (body : List Char) : List (List Char) :=
  fragmentsAux body.length body

/-- Model of one Go `beginsWith`-style prefix test used by `ReplaceAll`. -/
def beginsWith : List Char → List Char → Bool
  | [], _ => true
  | _ :: _, [] => false
  | o :: os, c :: cs => o == c && beginsWith os cs

/-- Fuelled model of `strings.ReplaceAll(s, old, new)`: leftmost,
non-overlapping replacement.  One unit of fuel per step; every step
consumes at least one input character when `old` is non-empty, so
`fuel = input length` is enough. -/
def replaceAllAux : Nat → List Char → List Char → List Char → List Char
  | 0, _, _, s => s
  | _ + 1, _, _, [] => []
  | fuel + 1, old, new, c :: cs =>
    if beginsWith old (c :: cs) then
      new ++ replaceAllAux fuel old new ((c :: cs).drop old.length)
    else
      c :: replaceAllAux fuel old new cs

/-- Model of `strings.ReplaceAll` (src/main.go:105-106 use it with
non-empty `old`). -/
def replaceAll (old new s : List Char) : List Char :=
  replaceAllAux s.length old new s

/-- Cleaning of one full regex match (src/main.go:104-107): remove every
occurrence of `value="`, then every quote, then prepend `" - "`. -/
def cleanMatch (m : List Char) : List Char :=
  sp ++ replaceAll ['"'] [] (replaceAll vq [] m)

/-- Model of `availableHours` (src/main.go:93-111), applied to the outcome
of the HTTP fetch for the date's endpoint.  A full regex match is always
`value="` ++ token ++ `"`, which is how the scanner's inner tokens are
turned back into the matched strings that the code cleans. -/
def availableHours (fetched : Except Err (List Char)) :
    Except Err (List (List Char)) :=
  match fetched with
  | .error e => .error e
  | .ok body => .ok ((fragments body).map (fun t => cleanMatch (vq ++ t ++ ['"'])))

/-- Written from the spec's words for the slot source: extract every
fragment, strip the `value="` prefix and the trailing quote, and prepend
`" - "` — to be compared with `availableHours` from the code. -/
def specHours (body : List Char) : List (List Char) :=
  (fragments body).map (fun t => sp ++ t)

/-- Reservation link used by the message footer (src/main.go:20). -/
def RESERVE_URL : String :=
  "http://turnos.santafe.gov.ar/turnos/web/frontend.php/turnos/index/pk/7539"

/-- Model of `formatMessage` (src/main.go:113-122) over the new-dates
mapping in its iteration order (Go's map order is unspecified; the model
takes the mapping as an association list in some order). -/
def formatMessage (m : List (Date × List (List Char))) : String :=
  let msg := "*Hi there! 👋*\nHere are the new available dates:\n"
  let msg := m.foldl
    (fun msg p =>
      let msg := msg ++ "\n*Date " ++ toString p.1.Day ++ "/" ++ toString p.1.Month ++ ":*"
      msg ++ "\n" ++ String.intercalate "\n" (p.2.map fun cs => String.mk cs) ++ "\n")
    msg
  msg ++ "\nSave the date [here](" ++ RESERVE_URL ++ ")!"

/-- Environment of one check run: the wall-clock month, the network's
response per endpoint, the outcome `bot.Send` would report, and whether
`WriteFile` would succeed. -/
structure Env where
  curMonth : Int
  datesBody : Int → Except Err (List Char)
  hoursBody : Date → Except Err (List Char)
  sendErr : Option Err
  writeOk : Bool

/-- Observable outcome of one check run: the returned error (if any), the
history file afterwards, the new-dates mapping of the dispatched
notification (when one was sent), and the month that was queried. -/
structure RunResult where
  res : Option Err
  world : World
  sent : Option (List (Date × List (List Char)))
  queried : Int

/-- Target-month computation of src/main.go:127-130. -/
def nextMonthOf (cur : Int) : Int :=
  let n := cur + 1
  if n = 13 then 1 else n

/-- Filter-and-append loop of src/main.go:144-157: skip dates already in
the (in-memory) history, append each new date to it, fetch its hours
(fatal on failure), and record the date with its hours.  The mapping is
kept as an association list; its keys are distinct because a date is
appended to the history before the next iteration. -/
def checkLoop (hb : Date → Except Err (List Char)) :
    List Date → List Date → List (Date × List (List Char)) →
    Except Err (List Date × List (Date × List (List Char)))
  | [], history, acc => .ok (history, acc)
  | date :: dates, history, acc =>
    if checkHistory date history then
      checkLoop hb dates history acc
    else
      match availableHours (hb date) with
      | .error e => .error e
      | .ok times => checkLoop hb dates (history ++ [date]) (acc ++ [(date, times)])

/-- Tail of `handleCheck` after the loop (src/main.go:159-178): nothing new
means success without dispatch or write; otherwise dispatch (fatal on
failure, history not persisted), then write the history, ignoring the
write's error. -/
def afterLoop (env : Env) (w : World) (nextMonth : Int) (history' : List Date)
    (possibleTimes : List (Date × List (List Char))) : RunResult :=
  if possibleTimes.isEmpty then ⟨none, w, none, nextMonth⟩
  else
    match env.sendErr with
    | some e => ⟨some e, w, none, nextMonth⟩
    | none => ⟨none, (writeHistory env.writeOk history' w).1, some possibleTimes, nextMonth⟩

/-- Model of `handleCheck` (src/main.go:124-179): compute the target month,
load the history (fatal on failure), fetch the month's dates (fatal on
failure), run the filter-and-append loop, then decide/notify/persist. -/
def handleCheck (env : Env) (w : World) : RunResult :=
  let nextMonth := nextMonthOf env.curMonth
  match readHistory w with
  | (_, some e) => ⟨some e, w, none, nextMonth⟩
  | (history, none) =>
    match availableDates nextMonth (env.datesBody nextMonth) with
    | .error e => ⟨some e, w, none, nextMonth⟩
    | .ok dates =>
      match checkLoop env.hoursBody dates history [] with
      | .error e => ⟨some e, w, none, nextMonth⟩
      | .ok (history', possibleTimes) => afterLoop env w nextMonth history' possibleTimes

theorem checkHistory_iff (date : Date) (history : List Date) :
    checkHistory date history = true ↔ date ∈ history := by
  simp [checkHistory, List.any_eq_true]

theorem unmarshalDate_marshalDate (d : Date) :
    unmarshalDate (marshalDate d) = some d := rfl

theorem unmarshalList_marshal (history : List Date) :
    unmarshalList (history.map marshalDate) = some history := by
  induction history with
  | nil => rfl
  | cons d ds ih => simp [unmarshalList, unmarshalDate_marshalDate, ih]

theorem readHistory_marshal (history : List Date) :
    readHistory (some (marshalHistory history)) = (history, none) := by
  simp [readHistory, marshalHistory, unmarshalHistory, unmarshalList_marshal]

theorem parseDays_of_atoiAll (m : Int) (toks : List (List Char)) :
    ∀ ns, atoiAll toks = some ns →
      parseDays m toks = .ok (ns.map fun d => (⟨m, d⟩ : Date)) := by
  induction toks with
  | nil =>
    intro ns h
    simp only [atoiAll, Option.some.injEq] at h
    subst h
    rfl
  | cons t ts ih =>
    intro ns h
    simp only [atoiAll] at h
    cases hat : atoi t with
    | none => rw [hat] at h; simp at h
    | some n =>
      rw [hat] at h
      cases hall : atoiAll ts with
      | none => rw [hall] at h; simp at h
      | some ns2 =>
        rw [hall] at h
        simp only [Option.some.injEq] at h
        subst h
        simp [parseDays, hat, ih ns2 hall]

theorem parseDays_error_of_bad (m : Int) (toks : List (List Char)) :
    (∃ tok ∈ toks, atoi tok = none) →
      ∃ t, parseDays m toks = .error (.parse t) ∧ atoi t = none := by
  induction toks with
  | nil => rintro ⟨tok, htok, _⟩; cases htok
  | cons t ts ih =>
    rintro ⟨tok, htok, hbad⟩
    cases hat : atoi t with
    | none => exact ⟨t, by simp [parseDays, hat], hat⟩
    | some n =>
      have hmem : tok ∈ ts := by
        rcases List.mem_cons.mp htok with h | h
        · subst h; rw [hat] at hbad; cases hbad
        · exact h
      obtain ⟨t0, he, h0⟩ := ih ⟨tok, hmem, hbad⟩
      exact ⟨t0, by simp [parseDays, hat, he], h0⟩

theorem replaceAllAux_nil (fuel : Nat) (old new : List Char) :
    replaceAllAux fuel old new [] = [] := by
  cases fuel <;> rfl

theorem beginsWith_append (xs ys : List Char) : beginsWith xs (xs ++ ys) = true := by
  induction xs with
  | nil => rfl
  | cons c cs ih => simp [beginsWith, ih]

theorem beginsWith_cons_ne (o : Char) (os : List Char) (c : Char) (cs : List Char)
    (h : c ≠ o) : beginsWith (o :: os) (c :: cs) = false := by
  have hoc : (o == c) = false := beq_eq_false_iff_ne.mpr (Ne.symm h)
  simp [beginsWith, hoc]

theorem replaceAllAux_no_head (o : Char) (os new : List Char) (s : List Char) :
    ∀ fuel : Nat, s.length ≤ fuel → (∀ c ∈ s, c ≠ o) →
      replaceAllAux fuel (o :: os) new s = s := by
  induction s with
  | nil => intro fuel _ _; exact replaceAllAux_nil fuel _ _
  | cons c cs ih =>
    intro fuel hlen hall
    cases fuel with
    | zero => simp at hlen
    | succ f =>
      have hc : c ≠ o := hall c (List.mem_cons_self c cs)
      rw [replaceAllAux, beginsWith_cons_ne o os c cs hc]
      simp only [Bool.false_eq_true, if_false]
      rw [ih f (by simpa using Nat.le_of_succ_le_succ hlen)
        (fun x hx => hall x (List.mem_cons_of_mem c hx))]

theorem replaceAllAux_head_match (o : Char) (os new rest : List Char) (f : Nat) :
    replaceAllAux (f + 1) (o :: os) new ((o :: os) ++ rest) =
      new ++ replaceAllAux f (o :: os) new rest := by
  have hdrop : ((o :: os) ++ rest).drop (o :: os).length = rest := List.drop_left _ _
  rw [List.cons_append, replaceAllAux, ← List.cons_append, beginsWith_append]
  simp only [if_true]
  rw [hdrop]

theorem replaceAllAux_strip_quote (q : Char) (new : List Char) (t : List Char) :
    ∀ fuel : Nat, t.length + 1 ≤ fuel → q ∉ t →
      replaceAllAux fuel [q] new (t ++ [q]) = t ++ new := by
  induction t with
  | nil =>
    intro fuel hlen _
    cases fuel with
    | zero => simp at hlen
    | succ f =>
      have h2 := replaceAllAux_head_match q [] new [] f
      simp only [List.append_nil] at h2
      simp only [List.nil_append]
      rw [h2, replaceAllAux_nil]
      simp
  | cons c t' ih =>
    intro fuel hlen hq
    cases fuel with
    | zero => simp at hlen
    | succ f =>
      have hc : c ≠ q := by
        intro h; exact hq (h ▸ List.mem_cons_self c t')
      rw [List.cons_append, replaceAllAux, beginsWith_cons_ne q [] c _ hc]
      simp only [Bool.false_eq_true, if_false]
      rw [ih f (by simp only [List.length_cons] at hlen; omega)
        (fun hx => hq (List.mem_cons_of_mem c hx))]
      simp

theorem cleanMatch_eq (t : List Char) (ht : ∀ c ∈ t, isTimeChar c = true) :
    cleanMatch (vq ++ (t ++ ['"'])) = sp ++ t := by
  have hv : ∀ c ∈ t ++ ['"'], c ≠ 'v' := by
    intro c hc
    rcases List.mem_append.mp hc with h | h
    · intro he
      have := ht c h
      rw [he] at this
      simp [isTimeChar] at this
    · simp at h
      subst h
      decide
  have hq : '"' ∉ t := by
    intro hmem
    have := ht '"' hmem
    simp [isTimeChar] at this
  have hlen : (vq ++ (t ++ ['"'])).length = (t.length + 7) + 1 := by
    simp [vq]
  have step1 : replaceAll vq [] (vq ++ (t ++ ['"'])) = t ++ ['"'] := by
    rw [replaceAll, hlen]
    show replaceAllAux ((t.length + 7) + 1) (('v' : Char) :: ['a', 'l', 'u', 'e', '=', '"'])
      [] (('v' : Char) :: ['a', 'l', 'u', 'e', '=', '"'] ++ (t ++ ['"'])) =
        t ++ ['"']
    rw [replaceAllAux_head_match]
    rw [replaceAllAux_no_head 'v' _ _ _ (t.length + 7) (by simp) hv]
    simp
  have step2 : replaceAll ['"'] [] (t ++ ['"']) = t := by
    rw [replaceAll]
    have : (t ++ ['"']).length = t.length + 1 := by simp
    rw [this, replaceAllAux_strip_quote '"' [] t (t.length + 1) (by omega) hq]
    simp
  rw [cleanMatch, step1, step2]

theorem matchFragment_eq (s t r : List Char) (h : matchFragment s = some (t, r)) :
    s = vq ++ (t ++ ('"' :: r)) ∧ t ≠ [] ∧ ∀ c ∈ t, isTimeChar c = true := by
  unfold matchFragment at h
  split at h
  case h_2 => exact absurd h (by simp)
  case h_1 rest =>
    simp only at h
    split at h
    · exact absurd h (by simp)
    case isFalse hne =>
      split at h
      case h_2 => exact absurd h (by simp)
      case h_1 r0 heq =>
        simp only [Option.some.injEq, Prod.mk.injEq] at h
        obtain ⟨ht, hr⟩ := h
        subst ht
        subst hr
        refine ⟨?_, ?_, ?_⟩
        · have hsplit : rest.takeWhile isTimeChar ++ rest.dropWhile isTimeChar = rest :=
            List.takeWhile_append_dropWhile _ _
          rw [heq] at hsplit
          simp only [vq, List.cons_append, List.nil_append]
          rw [hsplit]
        · intro he
          rw [he] at hne
          simp at hne
        · intro c hc
          exact List.mem_takeWhile_imp hc

theorem fragmentsAux_mem (fuel : Nat) :
    ∀ cs t : List Char, t ∈ fragmentsAux fuel cs →
      t ≠ [] ∧ (∀ c ∈ t, isTimeChar c = true) ∧
        ∃ pre post, cs = pre ++ (vq ++ (t ++ ('"' :: post))) := by
  induction fuel with
  | zero => intro cs t h; simp [fragmentsAux] at h
  | succ f ih =>
    intro cs t h
    cases cs with
    | nil => simp [fragmentsAux] at h
    | cons c cs' =>
      rw [fragmentsAux] at h
      cases hm : matchFragment (c :: cs') with
      | none =>
        rw [hm] at h
        obtain ⟨hne, htime, pre, post, hdec⟩ := ih cs' t h
        exact ⟨hne, htime, c :: pre, post, by rw [List.cons_append, hdec]⟩
      | some tr =>
        obtain ⟨t0, rest⟩ := tr
        rw [hm] at h
        simp only [List.mem_cons] at h
        obtain ⟨hshape, hne0, htime0⟩ := matchFragment_eq _ _ _ hm
        rcases h with h | h
        · subst h
          exact ⟨hne0, htime0, [], rest, by rw [List.nil_append, hshape]⟩
        · obtain ⟨hne, htime, pre, post, hdec⟩ := ih rest t h
          refine ⟨hne, htime, vq ++ (t0 ++ ('"' :: pre)), post, ?_⟩
          rw [hshape, hdec]
          simp [List.append_assoc]

theorem fragments_mem (body t : List Char) (h : t ∈ fragments body) :
    t ≠ [] ∧ (∀ c ∈ t, isTimeChar c = true) ∧
      ∃ pre post, body = pre ++ (vq ++ (t ++ ('"' :: post))) :=
  fragmentsAux_mem body.length body t h

theorem availableHours_spec (body : List Char) :
    availableHours (.ok body) = .ok (specHours body) := by
  simp only [availableHours, specHours, Except.ok.injEq]
  apply List.map_congr_left
  intro t ht
  obtain ⟨_, htime, _⟩ := fragments_mem body t ht
  exact cleanMatch_eq t htime

theorem checkLoop_all_known (hb : Date → Except Err (List Char)) (ds : List Date) :
    ∀ h acc, (∀ d ∈ ds, checkHistory d h = true) →
      checkLoop hb ds h acc = .ok (h, acc) := by
  induction ds with
  | nil => intro h acc _; rfl
  | cons d ds ih =>
    intro h acc hall
    rw [checkLoop, hall d (List.mem_cons_self d ds), if_pos rfl]
    exact ih h acc (fun x hx => hall x (List.mem_cons_of_mem d hx))

theorem checkLoop_grow (hb : Date → Except Err (List Char)) (ds : List Date) :
    ∀ h acc h' pt, checkLoop hb ds h acc = .ok (h', pt) →
      (∀ x ∈ h, x ∈ h') ∧ (∀ x ∈ acc, x ∈ pt) ∧ (∀ d ∈ ds, d ∈ h') := by
  induction ds with
  | nil =>
    intro h acc h' pt hres
    simp only [checkLoop, Except.ok.injEq, Prod.mk.injEq] at hres
    obtain ⟨h1, h2⟩ := hres
    subst h1; subst h2
    exact ⟨fun x hx => hx, fun x hx => hx, by simp⟩
  | cons d ds ih =>
    intro h acc h' pt hres
    rw [checkLoop] at hres
    cases hch : checkHistory d h with
    | true =>
      rw [hch, if_pos rfl] at hres
      obtain ⟨g1, g2, g3⟩ := ih h acc h' pt hres
      refine ⟨g1, g2, ?_⟩
      intro x hx
      rcases List.mem_cons.mp hx with rfl | hx
      · exact g1 x ((checkHistory_iff x h).mp hch)
      · exact g3 x hx
    | false =>
      rw [hch, if_neg (by simp)] at hres
      cases hhr : availableHours (hb d) with
      | error e => rw [hhr] at hres; exact absurd hres (by simp)
      | ok times =>
        rw [hhr] at hres
        obtain ⟨g1, g2, g3⟩ := ih (h ++ [d]) (acc ++ [(d, times)]) h' pt hres
        refine ⟨fun x hx => g1 x (by simp [hx]), fun x hx => g2 x (by simp [hx]), ?_⟩
        intro x hx
        rcases List.mem_cons.mp hx with rfl | hx
        · exact g1 x (by simp)
        · exact g3 x hx

theorem checkLoop_nodup (hb : Date → Except Err (List Char)) (ds : List Date) :
    ∀ h acc h' pt, h.Nodup → checkLoop hb ds h acc = .ok (h', pt) → h'.Nodup := by
  induction ds with
  | nil =>
    intro h acc h' pt hnd hres
    simp only [checkLoop, Except.ok.injEq, Prod.mk.injEq] at hres
    exact hres.1 ▸ hnd
  | cons d ds ih =>
    intro h acc h' pt hnd hres
    rw [checkLoop] at hres
    cases hch : checkHistory d h with
    | true =>
      rw [hch, if_pos rfl] at hres
      exact ih h acc h' pt hnd hres
    | false =>
      rw [hch, if_neg (by simp)] at hres
      cases hhr : availableHours (hb d) with
      | error e => rw [hhr] at hres; exact absurd hres (by simp)
      | ok times =>
        rw [hhr] at hres
        have hdn : d ∉ h := by
          intro hm
          rw [(checkHistory_iff d h).mpr hm] at hch
          cases hch
        have : (h ++ [d]).Nodup := by
          simp [List.nodup_append, hnd, List.Disjoint]
          intro a ha had
          exact hdn (had ▸ ha)
        exact ih (h ++ [d]) (acc ++ [(d, times)]) h' pt this hres

theorem checkLoop_total (hb : Date → Except Err (List Char)) (ds : List Date) :
    ∀ h acc, (∀ d ∈ ds, ∃ ts, availableHours (hb d) = .ok ts) →
      ∃ h' pt, checkLoop hb ds h acc = .ok (h', pt) := by
  induction ds with
  | nil => intro h acc _; exact ⟨h, acc, rfl⟩
  | cons d ds ih =>
    intro h acc hall
    rw [checkLoop]
    cases hch : checkHistory d h with
    | true =>
      rw [if_pos rfl]
      exact ih h acc (fun x hx => hall x (List.mem_cons_of_mem d hx))
    | false =>
      rw [if_neg (by simp)]
      obtain ⟨ts, hts⟩ := hall d (List.mem_cons_self d ds)
      rw [hts]
      exact ih _ _ (fun x hx => hall x (List.mem_cons_of_mem d hx))

theorem checkLoop_mem_new (hb : Date → Except Err (List Char)) (ds : List Date) :
    ∀ h acc h' pt d, checkLoop hb ds h acc = .ok (h', pt) → d ∈ ds → d ∉ h →
      ∃ ts, availableHours (hb d) = .ok ts ∧ (d, ts) ∈ pt ∧ d ∈ h' := by
  induction ds with
  | nil => intro h acc h' pt d _ hd _; cases hd
  | cons d0 ds ih =>
    intro h acc h' pt d hres hd hnh
    rw [checkLoop] at hres
    cases hch : checkHistory d0 h with
    | true =>
      rw [hch, if_pos rfl] at hres
      rcases List.mem_cons.mp hd with rfl | hd'
      · exact absurd ((checkHistory_iff d h).mp hch) hnh
      · exact ih h acc h' pt d hres hd' hnh
    | false =>
      rw [hch, if_neg (by simp)] at hres
      cases hhr : availableHours (hb d0) with
      | error e => rw [hhr] at hres; exact absurd hres (by simp)
      | ok times =>
        rw [hhr] at hres
        by_cases hdd : d = d0
        · subst hdd
          obtain ⟨g1, g2, g3⟩ := checkLoop_grow hb ds _ _ _ _ hres
          exact ⟨times, hhr, g2 _ (by simp), g1 _ (by simp)⟩
        · have hd2 : d ∈ ds := by
            rcases List.mem_cons.mp hd with h1 | h1
            · exact absurd h1 hdd
            · exact h1
          have hnh2 : d ∉ h ++ [d0] := by
            simp only [List.mem_append, List.mem_singleton]
            rintro (h1 | h1)
            · exact hnh h1
            · exact hdd h1
          exact ih _ _ h' pt d hres hd2 hnh2

theorem handleCheck_run (env : Env) (w : World) (h ds h' : List Date)
    (pt : List (Date × List (List Char)))
    (hr : readHistory w = (h, none))
    (hd : availableDates (nextMonthOf env.curMonth)
      (env.datesBody (nextMonthOf env.curMonth)) = .ok ds)
    (hc : checkLoop env.hoursBody ds h [] = .ok (h', pt)) :
    handleCheck env w = afterLoop env w (nextMonthOf env.curMonth) h' pt := by
  simp only [handleCheck, hr, hd, hc]

theorem handleCheck_no_new (env : Env) (w : World) (h ds : List Date)
    (hr : readHistory w = (h, none))
    (hd : availableDates (nextMonthOf env.curMonth)
      (env.datesBody (nextMonthOf env.curMonth)) = .ok ds)
    (hall : ∀ d ∈ ds, checkHistory d h = true) :
    handleCheck env w = ⟨none, w, none, nextMonthOf env.curMonth⟩ := by
  rw [handleCheck_run env w h ds h [] hr hd (checkLoop_all_known _ ds h [] hall)]
  simp [afterLoop]

theorem handleCheck_success (env : Env) (w : World)
    (hres : (handleCheck env w).res = none) :
    ((handleCheck env w).world = w ∧ (handleCheck env w).sent = none) ∨
    (∃ h ds h' pt,
      readHistory w = (h, none) ∧
      availableDates (nextMonthOf env.curMonth)
        (env.datesBody (nextMonthOf env.curMonth)) = .ok ds ∧
      checkLoop env.hoursBody ds h [] = .ok (h', pt) ∧
      pt ≠ [] ∧ env.sendErr = none ∧
      (handleCheck env w).world = (writeHistory env.writeOk h' w).1 ∧
      (handleCheck env w).sent = some pt) := by
  rcases hre : readHistory w with ⟨h, e⟩
  cases e with
  | some err =>
    have hval : handleCheck env w = ⟨some err, w, none, nextMonthOf env.curMonth⟩ := by
      simp only [handleCheck, hre]
    rw [hval] at hres
    simp at hres
  | none =>
    cases hde : availableDates (nextMonthOf env.curMonth)
        (env.datesBody (nextMonthOf env.curMonth)) with
    | error e2 =>
      have hval : handleCheck env w = ⟨some e2, w, none, nextMonthOf env.curMonth⟩ := by
        simp only [handleCheck, hre, hde]
      rw [hval] at hres
      simp at hres
    | ok ds =>
      cases hcl : checkLoop env.hoursBody ds h [] with
      | error e3 =>
        have hval : handleCheck env w = ⟨some e3, w, none, nextMonthOf env.curMonth⟩ := by
          simp only [handleCheck, hre, hde, hcl]
        rw [hval] at hres
        simp at hres
      | ok pr =>
        obtain ⟨h', pt⟩ := pr
        have hval := handleCheck_run env w h ds h' pt hre hde hcl
        by_cases hpt : pt.isEmpty
        · left
          rw [hval]
          unfold afterLoop
          rw [if_pos hpt]
          exact ⟨rfl, rfl⟩
        · cases hse : env.sendErr with
          | some e4 =>
            have hval2 : handleCheck env w = ⟨some e4, w, none, nextMonthOf env.curMonth⟩ := by
              rw [hval]; unfold afterLoop; rw [if_neg hpt, hse]
            rw [hval2] at hres
            simp at hres
          | none =>
            right
            have hval2 : handleCheck env w =
                ⟨none, (writeHistory env.writeOk h' w).1, some pt, nextMonthOf env.curMonth⟩ := by
              rw [hval]; unfold afterLoop; rw [if_neg hpt, hse]
            refine ⟨h, ds, h', pt, rfl, rfl, hcl, ?_, rfl, ?_, ?_⟩
            · intro hnil
              exact hpt (by simp [hnil])
            · rw [hval2]
            · rw [hval2]

/-- C3: for every response body with at least 2 comma-separated elements whose
interior elements all parse as decimal integers, availableDates returns one
Date with the queried month and the parsed day per interior element, in source
order; for every body with fewer than 2 comma-separated elements it returns
the empty sequence with no error. -/
theorem c3_dates_parsing :
    (∀ (m : Int) (body : List Char) (ns : List Int),
      2 ≤ (splitComma body).length →
      atoiAll (((splitComma body).drop 1).dropLast) = some ns →
      availableDates m (.ok body) = .ok (ns.map fun d => (⟨m, d⟩ : Date))) ∧
    (∀ (m : Int) (body : List Char), (splitComma body).length < 2 →
      availableDates m (.ok body) = .ok []) := by
  constructor
  · intro m body ns hlen hall
    simp only [availableDates]
    rw [if_neg (by omega)]
    exact parseDays_of_atoiAll m _ ns hall
  · intro m body hlen
    simp only [availableDates]
    rw [if_pos hlen]

/-- Witness for C3 at the spec's concrete bodies. -/
theorem c3_witness :
    availableDates 3 (.ok (",5,12,20,".data)) =
      .ok [⟨3, 5⟩, ⟨3, 12⟩, ⟨3, 20⟩] ∧
    availableDates 3 (.ok ("".data)) = .ok [] :=
  ⟨c3_dates_parsing.1 3 (",5,12,20,".data) [5, 12, 20] (by decide) (by decide),
   c3_dates_parsing.2 3 ("".data) (by decide)⟩

/-- C4: for every response body with at least 2 comma-separated elements in
which some interior element is not a valid decimal integer, availableDates
fails with a parse error (carrying a non-integer token) rather than returning
any dates. -/
theorem c4_parse_error :
    ∀ (m : Int) (body tok : List Char),
      2 ≤ (splitComma body).length →
      tok ∈ ((splitComma body).drop 1).dropLast →
      atoi tok = none →
      ∃ t, availableDates m (.ok body) = .error (.parse t) ∧ atoi t = none := by
  intro m body tok hlen hmem hbad
  simp only [availableDates]
  rw [if_neg (by omega)]
  exact parseDays_error_of_bad m _ ⟨tok, hmem, hbad⟩

/-- Witness for C4 at the spec's concrete body. -/
theorem c4_witness :
    ∃ t, availableDates 3 (.ok (",5,abc,".data)) = .error (.parse t) ∧
      atoi t = none :=
  c4_parse_error 3 (",5,abc,".data) ("abc".data) (by decide) (by decide) (by decide)

/-- C5: availableHours returns exactly the scanner's fragments matching
the pattern, in order of appearance, each equal to the fragment with the
leading marker and quotes stripped and the display separator prepended
(the code's ReplaceAll-based cleaning coincides with the spec's
strip-and-prepend description); every fragment is a non-empty run of
digits, colons and hyphens occurring quoted in the body; and a body with
no matching fragments yields the empty sequence with no error. -/
theorem c5_hours_parsing :
    ∀ body : List Char,
      availableHours (.ok body) = .ok (specHours body) ∧
      (∀ t ∈ fragments body, t ≠ [] ∧ (∀ c ∈ t, isTimeChar c = true) ∧
        ∃ pre post, body = pre ++ (vq ++ (t ++ ('"' :: post)))) ∧
      (fragments body = [] → availableHours (.ok body) = .ok []) := by
  intro body
  refine ⟨availableHours_spec body, fun t ht => fragments_mem body t ht, ?_⟩
  intro hnil
  simp [availableHours_spec body, specHours, hnil]

/-- Witness for C5 at the spec's concrete bodies. -/
theorem c5_witness :
    availableHours
        (.ok ("<input value=\"09:00-09:20\"/><input value=\"10:00-10:20\"/>".data)) =
      .ok [" - 09:00-09:20".data, " - 10:00-10:20".data] ∧
    availableHours (.ok ("no slots here".data)) = .ok [] := by
  constructor
  · rw [(c5_hours_parsing _).1]
    rfl
  · exact (c5_hours_parsing _).2.2 (by rfl)

/-- C6: writing any history with the history store and reading it back
yields a sequence structurally equal to the original (the write succeeding,
i.e. the store is available). -/
theorem c6_roundtrip (history : List Date) (w : World) :
    writeHistory true history w = (some (marshalHistory history), none) ∧
    readHistory (some (marshalHistory history)) = (history, none) :=
  ⟨rfl, readHistory_marshal history⟩

/-- C7: checkHistory decides membership by structural equality, and the
filter-and-append loop of the orchestrator preserves duplicate-freedom of
the history for every fetched date sequence, even one with repeats. -/
theorem c7_no_duplicates :
    (∀ (date : Date) (history : List Date),
      checkHistory date history = true ↔ date ∈ history) ∧
    (∀ (hb : Date → Except Err (List Char)) (ds h h' : List Date)
        (pt : List (Date × List (List Char))),
      h.Nodup → checkLoop hb ds h [] = .ok (h', pt) → h'.Nodup) :=
  ⟨checkHistory_iff,
   fun hb ds h h' pt hnd hres => checkLoop_nodup hb ds h [] h' pt hnd hres⟩

/-- Witness for C7: a duplicated fetched date does not create a duplicate
in the resulting history. -/
theorem c7_witness : ([⟨1, 2⟩, ⟨4, 10⟩] : List Date).Nodup :=
  c7_no_duplicates.2 (fun _ => .ok []) [⟨4, 10⟩, ⟨4, 10⟩] [⟨1, 2⟩]
    [⟨1, 2⟩, ⟨4, 10⟩] [(⟨4, 10⟩, [])] (by decide) (by rfl)

/-- C9: every run queries the month computed as current month plus one with
13 wrapped to 1; for current months 1..12 this is month plus one, except
12 which yields 1, and it is never 13. -/
theorem c9_next_month :
    (∀ (env : Env) (w : World),
      (handleCheck env w).queried = nextMonthOf env.curMonth) ∧
    (∀ m : Int, 1 ≤ m → m ≤ 12 →
      nextMonthOf m = (if m = 12 then 1 else m + 1) ∧ nextMonthOf m ≠ 13) := by
  constructor
  · intro env w
    rcases hre : readHistory w with ⟨h, e⟩
    cases e with
    | some err => simp only [handleCheck, hre]
    | none =>
      cases hde : availableDates (nextMonthOf env.curMonth)
          (env.datesBody (nextMonthOf env.curMonth)) with
      | error e2 => simp only [handleCheck, hre, hde]
      | ok ds =>
        cases hcl : checkLoop env.hoursBody ds h [] with
        | error e3 => simp only [handleCheck, hre, hde, hcl]
        | ok pr =>
          obtain ⟨h', pt⟩ := pr
          rw [handleCheck_run env w h ds h' pt hre hde hcl]
          unfold afterLoop
          by_cases hpt : pt.isEmpty
          · rw [if_pos hpt]
          · rw [if_neg hpt]
            cases env.sendErr <;> rfl
  · intro m h1 h12
    by_cases hm : m = 12
    · subst hm
      exact ⟨by decide, by decide⟩
    · have h13 : ¬(m + 1 = 13) := by omega
      simp only [nextMonthOf]
      rw [if_neg h13, if_neg hm]
      exact ⟨rfl, h13⟩

/-- Witness for C9 at the December wrap. -/
theorem c9_witness :
    (handleCheck ⟨12, fun _ => .error (.network []), fun _ => .error (.network []),
        none, true⟩ none).queried = nextMonthOf 12 ∧
    nextMonthOf 12 = (if (12 : Int) = 12 then 1 else 12 + 1) ∧
      nextMonthOf 12 ≠ 13 :=
  ⟨c9_next_month.1 _ none, c9_next_month.2 12 (by decide) (by decide)⟩

/-- Environment with one new date carrying no slots, a working notification
channel, and a failing history save. -/
def ce1Env : Env :=
  { curMonth := 3
    datesBody := fun _ => .ok (",10,".data)
    hoursBody := fun _ => .ok []
    sendErr := none
    writeOk := false }

/-- History file holding the empty history. -/
def ce1World : World := some (marshalHistory [])

/-- C1 counterexample: with identical remote responses on both runs, the
first run succeeds (it notifies, then its history save fails and the failure
is ignored), yet the second run dispatches a notification again — so a
successful first run does not by itself make the second run silent. -/
theorem c1_counterexample :
    (handleCheck ce1Env ce1World).res = none ∧
    (handleCheck ce1Env ce1World).sent ≠ none ∧
    (handleCheck ce1Env (handleCheck ce1Env ce1World).world).sent ≠ none := by
  decide

/-- C1 (amended): a cycle whose fetched dates are all already in the loaded
history terminates successfully, sends no notification and does not rewrite
the persisted history; and running the cycle twice with identical remote
responses, a successful first run and a succeeding history save yields a
second run that sends no notification and leaves the history unchanged. -/
theorem c1_no_new_and_idempotent :
    (∀ (env : Env) (w : World) (h ds : List Date),
      readHistory w = (h, none) →
      availableDates (nextMonthOf env.curMonth)
        (env.datesBody (nextMonthOf env.curMonth)) = .ok ds →
      (∀ d ∈ ds, checkHistory d h = true) →
      handleCheck env w = ⟨none, w, none, nextMonthOf env.curMonth⟩) ∧
    (∀ (env : Env) (w : World),
      env.writeOk = true →
      (handleCheck env w).res = none →
      (handleCheck env (handleCheck env w).world).sent = none ∧
      (handleCheck env (handleCheck env w).world).world = (handleCheck env w).world) := by
  constructor
  · exact fun env w h ds hr hd hall => handleCheck_no_new env w h ds hr hd hall
  · intro env w hwk hres
    rcases handleCheck_success env w hres with ⟨hw, hs⟩ |
      ⟨h, ds, h', pt, hre, hde, hcl, _, _, hworld, _⟩
    · rw [hw]
      exact ⟨hs, hw⟩
    · have hworld2 : (handleCheck env w).world = some (marshalHistory h') := by
        rw [hworld]
        simp [writeHistory, hwk]
      have hall : ∀ d ∈ ds, checkHistory d h' = true := fun d hd =>
        (checkHistory_iff d h').mpr ((checkLoop_grow _ _ _ _ _ _ hcl).2.2 d hd)
      have hr2 : readHistory (handleCheck env w).world = (h', none) := by
        rw [hworld2]
        exact readHistory_marshal h'
      rw [handleCheck_no_new env (handleCheck env w).world h' ds hr2 hde hall]
      exact ⟨rfl, rfl⟩

/-- Environment like `ce1Env` but with a working history save. -/
def w1Env : Env :=
  { curMonth := 3
    datesBody := fun _ => .ok (",10,".data)
    hoursBody := fun _ => .ok []
    sendErr := none
    writeOk := true }

/-- Witness for C1 (amended): an all-known cycle is silent, and after a
successful first run with a successful save, the second run is silent. -/
theorem c1_witness :
    handleCheck w1Env (some (marshalHistory [⟨4, 10⟩])) =
      ⟨none, some (marshalHistory [⟨4, 10⟩]), none, 4⟩ ∧
    (handleCheck w1Env (handleCheck w1Env (some (marshalHistory []))).world).sent = none := by
  constructor
  · exact c1_no_new_and_idempotent.1 w1Env (some (marshalHistory [⟨4, 10⟩]))
      [⟨4, 10⟩] [⟨4, 10⟩] (by rfl) (by rfl) (by decide)
  · exact (c1_no_new_and_idempotent.2 w1Env (some (marshalHistory [])) rfl (by decide)).1

/-- C2: when every prerequisite of dispatch holds but dispatch fails, the
check returns the dispatch error and the history file is unchanged, even
though the loop had appended the new dates to the in-memory history. -/
theorem c2_dispatch_failure :
    ∀ (env : Env) (w : World) (h ds : List Date) (e : Err),
      readHistory w = (h, none) →
      availableDates (nextMonthOf env.curMonth)
        (env.datesBody (nextMonthOf env.curMonth)) = .ok ds →
      (∀ d ∈ ds, ∃ ts, availableHours (env.hoursBody d) = .ok ts) →
      (∃ d ∈ ds, checkHistory d h = false) →
      env.sendErr = some e →
      handleCheck env w = ⟨some e, w, none, nextMonthOf env.curMonth⟩ ∧
      ∃ h' pt, checkLoop env.hoursBody ds h [] = .ok (h', pt) ∧ pt ≠ [] := by
  intro env w h ds e hre hde hall hnew hse
  obtain ⟨h', pt, hcl⟩ := checkLoop_total env.hoursBody ds h [] hall
  obtain ⟨d, hd, hch⟩ := hnew
  have hnh : d ∉ h := fun hm => by
    rw [(checkHistory_iff d h).mpr hm] at hch
    cases hch
  obtain ⟨ts, _, hmem, _⟩ := checkLoop_mem_new env.hoursBody ds h [] h' pt d hcl hd hnh
  have hptne : ¬pt.isEmpty := by
    intro hie
    rw [List.isEmpty_iff.mp hie] at hmem
    cases hmem
  constructor
  · rw [handleCheck_run env w h ds h' pt hre hde hcl]
    unfold afterLoop
    rw [if_neg hptne, hse]
  · exact ⟨h', pt, hcl, fun hnil => hptne (by simp [hnil])⟩

/-- Environment with one new date, no slots, and a failing notification
channel. -/
def w2Env : Env :=
  { curMonth := 3
    datesBody := fun _ => .ok (",10,".data)
    hoursBody := fun _ => .ok []
    sendErr := some .dispatch
    writeOk := true }

/-- Witness for C2 at a concrete failing dispatch. -/
theorem c2_witness :
    handleCheck w2Env (some (marshalHistory [])) =
      ⟨some .dispatch, some (marshalHistory []), none, 4⟩ ∧
    ∃ h' pt, checkLoop w2Env.hoursBody [⟨4, 10⟩] [] [] = .ok (h', pt) ∧ pt ≠ [] :=
  c2_dispatch_failure w2Env (some (marshalHistory [])) [] [⟨4, 10⟩] .dispatch
    (by rfl) (by rfl) (fun d _ => ⟨[], rfl⟩) ⟨⟨4, 10⟩, by decide, by decide⟩ rfl

/-- C8: when dispatch succeeds and the subsequent history save fails, the
check still returns success, a notification was sent, and the file keeps
its previous contents. -/
theorem c8_save_failure_ignored :
    ∀ (env : Env) (w : World) (h ds : List Date),
      readHistory w = (h, none) →
      availableDates (nextMonthOf env.curMonth)
        (env.datesBody (nextMonthOf env.curMonth)) = .ok ds →
      (∀ d ∈ ds, ∃ ts, availableHours (env.hoursBody d) = .ok ts) →
      (∃ d ∈ ds, checkHistory d h = false) →
      env.sendErr = none →
      env.writeOk = false →
      (handleCheck env w).res = none ∧ (handleCheck env w).sent.isSome = true ∧
        (handleCheck env w).world = w := by
  intro env w h ds hre hde hall hnew hse hwk
  obtain ⟨h', pt, hcl⟩ := checkLoop_total env.hoursBody ds h [] hall
  obtain ⟨d, hd, hch⟩ := hnew
  have hnh : d ∉ h := fun hm => by
    rw [(checkHistory_iff d h).mpr hm] at hch
    cases hch
  obtain ⟨ts, _, hmem, _⟩ := checkLoop_mem_new env.hoursBody ds h [] h' pt d hcl hd hnh
  have hptne : ¬pt.isEmpty := by
    intro hie
    rw [List.isEmpty_iff.mp hie] at hmem
    cases hmem
  have hval : handleCheck env w =
      ⟨none, (writeHistory env.writeOk h' w).1, some pt, nextMonthOf env.curMonth⟩ := by
    rw [handleCheck_run env w h ds h' pt hre hde hcl]
    unfold afterLoop
    rw [if_neg hptne, hse]
  rw [hval]
  refine ⟨rfl, rfl, ?_⟩
  simp [writeHistory, hwk]

/-- Environment with one new date, no slots, a working channel, and a
failing history save. -/
def w8Env : Env :=
  { curMonth := 3
    datesBody := fun _ => .ok (",10,".data)
    hoursBody := fun _ => .ok []
    sendErr := none
    writeOk := false }

/-- Witness for C8 at a concrete failing save. -/
theorem c8_witness :
    (handleCheck w8Env (some (marshalHistory []))).res = none ∧
    (handleCheck w8Env (some (marshalHistory []))).sent.isSome = true ∧
    (handleCheck w8Env (some (marshalHistory []))).world = some (marshalHistory []) :=
  c8_save_failure_ignored w8Env (some (marshalHistory [])) [] [⟨4, 10⟩]
    (by rfl) (by rfl) (fun d _ => ⟨[], rfl⟩) ⟨⟨4, 10⟩, by decide, by decide⟩ rfl rfl

/-- C10: a newly discovered date whose slot fetch succeeds with an empty
slot list is still treated as new: it appears in the dispatched mapping
with an empty slot sequence, the notification is sent, and the date is in
the history persisted after successful dispatch. -/
theorem c10_empty_slots_still_new :
    ∀ (env : Env) (w : World) (h ds : List Date) (d : Date),
      readHistory w = (h, none) →
      availableDates (nextMonthOf env.curMonth)
        (env.datesBody (nextMonthOf env.curMonth)) = .ok ds →
      (∀ d2 ∈ ds, ∃ ts, availableHours (env.hoursBody d2) = .ok ts) →
      d ∈ ds →
      checkHistory d h = false →
      availableHours (env.hoursBody d) = .ok [] →
      env.sendErr = none →
      env.writeOk = true →
      ∃ h' pt,
        handleCheck env w =
          ⟨none, some (marshalHistory h'), some pt, nextMonthOf env.curMonth⟩ ∧
        (d, ([] : List (List Char))) ∈ pt ∧ d ∈ h' := by
  intro env w h ds d hre hde hall hd hch hempty hse hwk
  obtain ⟨h', pt, hcl⟩ := checkLoop_total env.hoursBody ds h [] hall
  have hnh : d ∉ h := fun hm => by
    rw [(checkHistory_iff d h).mpr hm] at hch
    cases hch
  obtain ⟨ts, hts, hmem, hmemh⟩ := checkLoop_mem_new env.hoursBody ds h [] h' pt d hcl hd hnh
  have hts0 : ts = [] := by
    have := hempty.symm.trans hts
    simpa using this
  have hptne : ¬pt.isEmpty := by
    intro hie
    rw [List.isEmpty_iff.mp hie] at hmem
    cases hmem
  refine ⟨h', pt, ?_, ?_, hmemh⟩
  · rw [handleCheck_run env w h ds h' pt hre hde hcl]
    unfold afterLoop
    rw [if_neg hptne, hse]
    simp [writeHistory, hwk]
  · rw [← hts0]
    exact hmem

/-- Environment with one new date, no slots, a working channel and a
working history save. -/
def w10Env : Env :=
  { curMonth := 3
    datesBody := fun _ => .ok (",10,".data)
    hoursBody := fun _ => .ok []
    sendErr := none
    writeOk := true }

/-- Witness for C10 at a concrete zero-slot new date. -/
theorem c10_witness :
    ∃ h' pt,
      handleCheck w10Env (some (marshalHistory [])) =
        ⟨none, some (marshalHistory h'), some pt, nextMonthOf w10Env.curMonth⟩ ∧
      ((⟨4, 10⟩ : Date), ([] : List (List Char))) ∈ pt ∧ (⟨4, 10⟩ : Date) ∈ h' :=
  c10_empty_slots_still_new w10Env (some (marshalHistory [])) [] [⟨4, 10⟩] ⟨4, 10⟩
    (by rfl) (by rfl) (fun d _ => ⟨[], rfl⟩) (by decide) (by decide) (by rfl) rfl rfl
